import Mathlib

/-!
# Verification of the check-notion-url maintenance script

Shallow embedding of `src/check_urls.js` (the variant with duplicate
detection) and of the related variants in `src/unnamed/part_000`.

The script fetches link records from a Notion database, deduplicates
records sharing the same URL (first occurrence kept, the rest archived),
probes each unique URL with a headless browser, and writes the observed
status back.  We embed:

* the status vocabulary `STATUS_MAP`;
* the classifier `checkUrlStatus` (with the Playwright interactions —
  `browser.newPage`, `page.goto`, the thrown errors and the `finally`
  page close — made explicit as injected outcomes and an event trace);
* the deduplication section of `main` (`urlMap` construction and the
  canonical/duplicate partition);
* `processPage` (probe then Notion write-back, with the `try/catch`
  around the write embedded as a `match` on an `Except`);
* a scheduler relation for the `p-limit` bounded-concurrency runner.
-/

namespace CheckNotionUrl

/-- JavaScript truthiness of a `string | null` value: `null` and the empty
string are falsy (`if (!url)`), every other string is truthy. -/
def jsTruthy : Option String → Bool
  | none => false
  | some s => !s.isEmpty

/-- `a = b` as a Bool on lists of characters, first list a prefix of second. -/
def charsPrefixOf : List Char → List Char → Bool
  | [], _ => true
  | _ :: _, [] => false
  | a :: as, b :: bs => (a = b) && charsPrefixOf as bs

/-- Substring occurrence test on character lists. -/
def charsContains (pat : List Char) : List Char → Bool
  | [] => pat.isEmpty
  | b :: bs => charsPrefixOf pat (b :: bs) || charsContains pat bs

/-- JavaScript `s.includes(search)`: does `search` occur as a contiguous
substring of `s`? -/
def jsIncludes (s search : String) : Bool :=
  charsContains search.toList s.toList

/-- The status vocabulary written back to the Notion `状态` field
(`STATUS_MAP` in the source). -/
structure StatusMapT where
  available : String
  redirect : String
  dead : String
  error : String

def STATUS_MAP : StatusMapT :=
  { available := "可用"
    redirect := "重定向"
    dead := "已失效"
    error := "错误" }

/-- Outcome of `browser.newPage(...)` for one probe: either a page is
created or Playwright throws. -/
inductive NewPageResult
  | ok
  | thrown (message : String)

/-- Outcome of `page.goto(url, ...)`: either a response with the final
navigated URL (`page.url()`) and its status code, or a thrown navigation
error with a message. -/
inductive NavResult
  | ok (finalUrl : String) (status : Nat)
  | thrown (message : String)

/-- Observable Playwright interactions of one probe, used to state the
no-leak and no-network properties. -/
inductive BrowserEvent
  | pageCreated
  | navigated (url : String)
  | pageClosed
deriving DecidableEq

/-- Embedding of `checkUrlStatus(browser, url)`.  The network behaviour is
injected as the outcomes of `browser.newPage` and `page.goto`; the result
is the returned status string together with the trace of page events
(creation, navigation, close).  Mirrors the source exactly:

* `if (!url) return STATUS_MAP.error;` — before any page is created;
* a thrown error (from `newPage` or `goto`) is caught, and yields
  `dead` when its message includes `'404'`, else `error`;
* on a response: `finalUrl !== url && finalUrl !== url + '/'` →
  `redirect`; else `status >= 200 && status < 400` → `available`;
  else `status === 404` → `dead`; else `error`;
* the `finally` block closes the page whenever one was created. -/
def checkUrlStatus (newPage : NewPageResult) (nav : NavResult)
    (url : Option String) : String × List BrowserEvent :=
  if jsTruthy url = false then
    (STATUS_MAP.error, [])
  else
    let u := url.getD ""
    match newPage with
    | .thrown msg =>
      -- `page` was never assigned: the catch runs, the finally closes nothing
      ((if jsIncludes msg "404" then STATUS_MAP.dead else STATUS_MAP.error), [])
    | .ok =>
      match nav with
      | .thrown msg =>
        ((if jsIncludes msg "404" then STATUS_MAP.dead else STATUS_MAP.error),
          [.pageCreated, .navigated u, .pageClosed])
      | .ok finalUrl status =>
        let result :=
          if finalUrl ≠ u ∧ finalUrl ≠ u ++ "/" then STATUS_MAP.redirect
          else if 200 ≤ status ∧ status < 400 then STATUS_MAP.available
          else if status = 404 then STATUS_MAP.dead
          else STATUS_MAP.error
        (result, [.pageCreated, .navigated u, .pageClosed])

/-- A Notion page as the script reads it: an opaque id, the `名称` title
and the `链接` URL property (`string | null`). -/
structure LinkRecord where
  id : String
  title : String
  url : Option String
deriving DecidableEq

/-! ## Deduplication (`main`, the `urlMap` section) -/

/-- The `urlMap` is a JavaScript `Map` from URL string to the list of
pages pushed for it; we embed it as an association list whose entry order
is key insertion order and whose group order is push order. -/
abbrev UrlMap := List (String × List LinkRecord)

/-- One `urlMap.get(url).push(page)` (creating the entry on a miss, at the
end, as `Map.set` does for a fresh key). -/
def addToMap : UrlMap → String → LinkRecord → UrlMap
  | [], u, p => [(u, [p])]
  | (k, ps) :: rest, u, p =>
    if k = u then (k, ps ++ [p]) :: rest
    else (k, ps) :: addToMap rest u p

/-- The body of the `allPages.forEach` callback: only pages with a truthy
URL are entered into the map (`if (url) { ... }`). -/
def urlMapStep (urlMap : UrlMap) (page : LinkRecord) : UrlMap :=
  if jsTruthy page.url then addToMap urlMap (page.url.getD "") page
  else urlMap

/-- The `allPages.forEach` loop building `urlMap`. -/
def buildUrlMap (allPages : List LinkRecord) : UrlMap :=
  allPages.foldl urlMapStep []

/-- The `for (const [url, pages] of urlMap.entries())` loop: the first
page of each group goes to `uniquePagesToProcess`, the rest to
`pagesToDelete`.  Returns `(uniquePagesToProcess, pagesToDelete)`.
Groups are nonempty by construction; an empty group contributes
nothing. -/
def partitionStep (acc : List LinkRecord × List LinkRecord)
    (entry : String × List LinkRecord) : List LinkRecord × List LinkRecord :=
  match entry.2 with
  | [] => acc
  | first :: rest => (acc.1 ++ [first], acc.2 ++ rest)

def partitionRecords (allPages : List LinkRecord) :
    List LinkRecord × List LinkRecord :=
  (buildUrlMap allPages).foldl partitionStep ([], [])

/-- The records of the input carrying URL `u`, in input order. -/
def occurrences (u : String) (allPages : List LinkRecord) : List LinkRecord :=
  allPages.filter (fun p => decide (p.url = some u))

/-! ### Dedup helper functions and lemmas -/

/-- The first page of every nonempty group, in entry order (what the loop
pushes to `uniquePagesToProcess`). -/
def groupHeads (m : UrlMap) : List LinkRecord :=
  m.filterMap (fun e => e.2.head?)

/-- All pages after the first of each group, in entry order (what the loop
pushes to `pagesToDelete`). -/
def groupTails (m : UrlMap) : List LinkRecord :=
  (m.map (fun e => e.2.tail)).flatten

/-- All pages stored in the map, in entry order. -/
def groupJoin (m : UrlMap) : List LinkRecord :=
  (m.map Prod.snd).flatten

/-- `urlMap.get(u)` on the association list. -/
def mapLookup : UrlMap → String → Option (List LinkRecord)
  | [], _ => none
  | (k, ps) :: rest, u => if k = u then some ps else mapLookup rest u

/-- Every page stored under a key carries exactly that URL. -/
def entriesWF (m : UrlMap) : Prop :=
  ∀ e ∈ m, ∀ p ∈ e.2, p.url = some e.1

/-- The keys of the map are pairwise distinct (as for a JavaScript `Map`). -/
def keysNodup (m : UrlMap) : Prop :=
  (m.map Prod.fst).Nodup

theorem foldl_partitionStep (m : UrlMap) (acc : List LinkRecord × List LinkRecord) :
    m.foldl partitionStep acc = (acc.1 ++ groupHeads m, acc.2 ++ groupTails m) := by
  induction m generalizing acc with
  | nil => simp [groupHeads, groupTails]
  | cons e rest ih =>
    obtain ⟨k, ps⟩ := e
    cases ps with
    | nil => simp [partitionStep, groupHeads, groupTails, ih, List.filterMap_cons]
    | cons first tail =>
      simp [partitionStep, groupHeads, groupTails, ih, List.filterMap_cons]

theorem partitionRecords_eq (allPages : List LinkRecord) :
    partitionRecords allPages =
      (groupHeads (buildUrlMap allPages), groupTails (buildUrlMap allPages)) := by
  simpa [partitionRecords] using foldl_partitionStep (buildUrlMap allPages) ([], [])

theorem mapLookup_addToMap (m : UrlMap) (u v : String) (p : LinkRecord) :
    mapLookup (addToMap m u p) v =
      if v = u then some ((mapLookup m v).getD [] ++ [p]) else mapLookup m v := by
  induction m with
  | nil =>
    by_cases h : v = u
    · subst h; simp [addToMap, mapLookup]
    · have h2 : ¬u = v := fun hh => h hh.symm
      simp [addToMap, mapLookup, h, h2]
  | cons e rest ih =>
    obtain ⟨k, ps⟩ := e
    by_cases hk : k = u
    · subst hk
      by_cases hv : v = k
      · subst hv; simp [addToMap, mapLookup]
      · have h2 : ¬k = v := fun hh => hv hh.symm
        simp [addToMap, mapLookup, hv, h2]
    · by_cases hv : v = k
      · subst hv
        simp [addToMap, mapLookup, hk]
      · have h2 : ¬k = v := fun hh => hv hh.symm
        simp [addToMap, mapLookup, hk, hv, h2, ih]

theorem mapLookup_foldl_urlMapStep (u : String) (hu : u.isEmpty = false)
    (pages : List LinkRecord) (m : UrlMap) :
    mapLookup (pages.foldl urlMapStep m) u =
      if (occurrences u pages).isEmpty then mapLookup m u
      else some ((mapLookup m u).getD [] ++ occurrences u pages) := by
  induction pages generalizing m with
  | nil => simp [occurrences]
  | cons p rest ih =>
    by_cases hp : p.url = some u
    · have htr : jsTruthy (some u) = true := by
        simp [jsTruthy, hu]
      have hstep : urlMapStep m p = addToMap m u p := by
        simp [urlMapStep, hp, htr]
      have hocc : occurrences u (p :: rest) = p :: occurrences u rest := by
        simp [occurrences, List.filter_cons, hp]
      rw [List.foldl_cons, hstep, ih (addToMap m u p), hocc,
        mapLookup_addToMap m u u p]
      cases hocc2 : occurrences u rest with
      | nil => simp
      | cons q qs => simp
    · have hocc : occurrences u (p :: rest) = occurrences u rest := by
        simp [occurrences, List.filter_cons, hp]
      have hlookup : mapLookup (urlMapStep m p) u = mapLookup m u := by
        unfold urlMapStep
        by_cases htr : jsTruthy p.url
        · have hne : u ≠ p.url.getD "" := by
            intro he
            cases hurl : p.url with
            | none => rw [hurl] at htr; simp [jsTruthy] at htr
            | some s =>
              apply hp
              rw [hurl] at he ⊢
              simp at he
              rw [he]
          simp [htr, mapLookup_addToMap, hne]
        · simp [htr]
      rw [hocc, List.foldl_cons, ih (urlMapStep m p), hlookup]

theorem mapLookup_buildUrlMap (u : String) (hu : u.isEmpty = false)
    (allPages : List LinkRecord) :
    (mapLookup (buildUrlMap allPages) u).getD [] = occurrences u allPages := by
  rw [buildUrlMap, mapLookup_foldl_urlMapStep u hu allPages []]
  cases hocc : occurrences u allPages with
  | nil => simp [mapLookup]
  | cons q qs => simp [mapLookup]

theorem entriesWF_addToMap (m : UrlMap) (u : String) (p : LinkRecord)
    (hm : entriesWF m) (hp : p.url = some u) : entriesWF (addToMap m u p) := by
  induction m with
  | nil =>
    intro e he q hq
    simp [addToMap] at he
    subst he
    simp at hq
    subst hq
    exact hp
  | cons f rest ih =>
    obtain ⟨k, ps⟩ := f
    have hrest : entriesWF rest := fun e he => hm e (by simp [he])
    by_cases hk : k = u
    · subst hk
      intro e he q hq
      simp [addToMap] at he
      rcases he with he | he
      · subst he
        simp at hq
        rcases hq with hq | hq
        · exact hm (k, ps) (by simp) q hq
        · subst hq; exact hp
      · exact hm e (by simp [he]) q hq
    · intro e he q hq
      simp [addToMap, hk] at he
      rcases he with he | he
      · subst he
        exact hm (k, ps) (by simp) q hq
      · exact ih hrest e he q hq

theorem entriesWF_buildUrlMap (allPages : List LinkRecord) :
    entriesWF (buildUrlMap allPages) := by
  have main : ∀ (pages : List LinkRecord) (m : UrlMap), entriesWF m →
      entriesWF (pages.foldl urlMapStep m) := by
    intro pages
    induction pages with
    | nil => intro m hm; exact hm
    | cons p rest ih =>
      intro m hm
      rw [List.foldl_cons]
      apply ih
      unfold urlMapStep
      by_cases htr : jsTruthy p.url
      · cases hurl : p.url with
        | none => rw [hurl] at htr; simp [jsTruthy] at htr
        | some s =>
          rw [hurl] at htr
          rw [if_pos htr]
          exact entriesWF_addToMap m s p hm hurl
      · simp [htr]; exact hm
  exact main allPages [] (by intro e he; simp at he)

theorem keys_addToMap (m : UrlMap) (u : String) (p : LinkRecord) :
    (addToMap m u p).map Prod.fst =
      if u ∈ m.map Prod.fst then m.map Prod.fst else m.map Prod.fst ++ [u] := by
  induction m with
  | nil => simp [addToMap]
  | cons e rest ih =>
    obtain ⟨k, ps⟩ := e
    by_cases hk : k = u
    · subst hk; simp [addToMap]
    · have h2 : ¬u = k := fun hh => hk hh.symm
      simp [addToMap, hk, h2, ih]
      by_cases hmem : u ∈ rest.map Prod.fst <;> simp [hmem, h2]

theorem keysNodup_addToMap (m : UrlMap) (u : String) (p : LinkRecord)
    (hm : keysNodup m) : keysNodup (addToMap m u p) := by
  unfold keysNodup
  rw [keys_addToMap]
  by_cases hmem : u ∈ m.map Prod.fst
  · simp [hmem]; exact hm
  · simp only [hmem, if_false]
    exact List.Nodup.append hm (List.nodup_singleton u)
      (by simp [List.disjoint_singleton, hmem])

theorem keysNodup_buildUrlMap (allPages : List LinkRecord) :
    keysNodup (buildUrlMap allPages) := by
  have main : ∀ (pages : List LinkRecord) (m : UrlMap), keysNodup m →
      keysNodup (pages.foldl urlMapStep m) := by
    intro pages
    induction pages with
    | nil => intro m hm; exact hm
    | cons p rest ih =>
      intro m hm
      rw [List.foldl_cons]
      apply ih
      unfold urlMapStep
      by_cases htr : jsTruthy p.url
      · simp only [htr, if_true]
        exact keysNodup_addToMap m (p.url.getD "") p hm
      · simp [htr]; exact hm
  exact main allPages [] (by simp [keysNodup])

/-- The record filter "has url `u`", as a Bool. -/
def hasUrl (u : String) (p : LinkRecord) : Bool :=
  decide (p.url = some u)

theorem filter_groupHeads_notMem (m : UrlMap) (u : String)
    (hwf : entriesWF m) (hk : u ∉ m.map Prod.fst) :
    (groupHeads m).filter (hasUrl u) = [] := by
  induction m with
  | nil => rfl
  | cons e rest ih =>
    obtain ⟨k, ps⟩ := e
    have hrest : entriesWF rest := fun f hf => hwf f (by simp [hf])
    have hkrest : u ∉ rest.map Prod.fst := fun hh => hk (by simp [hh])
    have hku : k ≠ u := fun hh => hk (by simp [hh])
    cases ps with
    | nil => simpa [groupHeads, List.filterMap_cons] using ih hrest hkrest
    | cons q qs =>
      have hq : q.url = some k := hwf (k, q :: qs) (by simp) q (by simp)
      have hqu : hasUrl u q = false := by
        simp [hasUrl, hq, hku]
      simp [groupHeads, List.filterMap_cons, List.filter_cons, hqu]
      simpa [groupHeads] using ih hrest hkrest

theorem filter_groupTails_notMem (m : UrlMap) (u : String)
    (hwf : entriesWF m) (hk : u ∉ m.map Prod.fst) :
    (groupTails m).filter (hasUrl u) = [] := by
  induction m with
  | nil => rfl
  | cons e rest ih =>
    obtain ⟨k, ps⟩ := e
    have hrest : entriesWF rest := fun f hf => hwf f (by simp [hf])
    have hkrest : u ∉ rest.map Prod.fst := fun hh => hk (by simp [hh])
    have hku : k ≠ u := fun hh => hk (by simp [hh])
    have htail : ps.tail.filter (hasUrl u) = [] := by
      rw [List.filter_eq_nil_iff]
      intro q hq
      have : q.url = some k :=
        hwf (k, ps) (by simp) q (List.mem_of_mem_tail hq)
      simp [hasUrl, this, hku]
    simp only [groupTails, List.map_cons, List.flatten_cons, List.filter_append, htail,
      List.nil_append]
    exact ih hrest hkrest

theorem filter_groupHeads (m : UrlMap) (u : String)
    (hwf : entriesWF m) (hnd : keysNodup m) :
    (groupHeads m).filter (hasUrl u) = ((mapLookup m u).getD []).take 1 := by
  induction m with
  | nil => rfl
  | cons e rest ih =>
    obtain ⟨k, ps⟩ := e
    have hrest : entriesWF rest := fun f hf => hwf f (by simp [hf])
    have hndrest : keysNodup rest := by
      have := hnd
      simp [keysNodup] at this ⊢
      exact this.2
    by_cases hk : k = u
    · subst hk
      have hkrest : k ∉ rest.map Prod.fst := by
        have := hnd
        simp [keysNodup] at this
        intro hmem
        exact absurd hmem (by simpa using this.1)
      have hzero : (groupHeads rest).filter (hasUrl k) = [] :=
        filter_groupHeads_notMem rest k hrest hkrest
      cases ps with
      | nil =>
        have hgh : groupHeads ((k, []) :: rest) = groupHeads rest := by
          simp [groupHeads, List.filterMap_cons]
        rw [hgh, hzero]
        simp [mapLookup]
      | cons q qs =>
        have hq : q.url = some k := hwf (k, q :: qs) (by simp) q (by simp)
        have hqu : hasUrl k q = true := by simp [hasUrl, hq]
        simp [groupHeads, List.filterMap_cons, List.filter_cons, hqu, mapLookup]
        simpa [groupHeads] using hzero
    · have hlook : mapLookup ((k, ps) :: rest) u = mapLookup rest u := by
        simp [mapLookup, hk]
      cases ps with
      | nil =>
        rw [hlook]
        simpa [groupHeads, List.filterMap_cons] using ih hrest hndrest
      | cons q qs =>
        have hq : q.url = some k := hwf (k, q :: qs) (by simp) q (by simp)
        have hqu : hasUrl u q = false := by
          simp only [hasUrl, hq, decide_eq_false_iff_not]
          intro hh
          exact hk (Option.some.inj hh)
        rw [hlook]
        simp [groupHeads, List.filterMap_cons, List.filter_cons, hqu]
        simpa [groupHeads] using ih hrest hndrest

theorem filter_groupTails (m : UrlMap) (u : String)
    (hwf : entriesWF m) (hnd : keysNodup m) :
    (groupTails m).filter (hasUrl u) = ((mapLookup m u).getD []).drop 1 := by
  induction m with
  | nil => rfl
  | cons e rest ih =>
    obtain ⟨k, ps⟩ := e
    have hrest : entriesWF rest := fun f hf => hwf f (by simp [hf])
    have hndrest : keysNodup rest := by
      have := hnd
      simp [keysNodup] at this ⊢
      exact this.2
    by_cases hk : k = u
    · subst hk
      have hkrest : k ∉ rest.map Prod.fst := by
        have := hnd
        simp [keysNodup] at this
        intro hmem
        exact absurd hmem (by simpa using this.1)
      have hzero : (groupTails rest).filter (hasUrl k) = [] :=
        filter_groupTails_notMem rest k hrest hkrest
      have htail : ps.tail.filter (hasUrl k) = ps.tail := by
        rw [List.filter_eq_self]
        intro q hq
        have : q.url = some k :=
          hwf (k, ps) (by simp) q (List.mem_of_mem_tail hq)
        simp [hasUrl, this]
      have hsplit : groupTails ((k, ps) :: rest) = ps.tail ++ groupTails rest := by
        simp [groupTails]
      rw [hsplit, List.filter_append, htail, hzero, List.append_nil]
      simp [mapLookup, List.drop_one]
    · have hlook : mapLookup ((k, ps) :: rest) u = mapLookup rest u := by
        simp [mapLookup, hk]
      have htail : ps.tail.filter (hasUrl u) = [] := by
        rw [List.filter_eq_nil_iff]
        intro q hq
        have : q.url = some k :=
          hwf (k, ps) (by simp) q (List.mem_of_mem_tail hq)
        simp only [hasUrl, this]
        intro hh
        exact hk (Option.some.inj (of_decide_eq_true hh))
      rw [hlook]
      have hsplit : groupTails ((k, ps) :: rest) = ps.tail ++ groupTails rest := by
        simp [groupTails]
      rw [hsplit, List.filter_append, htail, List.nil_append]
      exact ih hrest hndrest

theorem heads_tails_eq_join (m : UrlMap) :
    (↑(groupHeads m) + ↑(groupTails m) : Multiset LinkRecord) = ↑(groupJoin m) := by
  induction m with
  | nil => rfl
  | cons e rest ih =>
    obtain ⟨k, ps⟩ := e
    have h1 : groupHeads ((k, ps) :: rest) = ps.take 1 ++ groupHeads rest := by
      cases ps <;> simp [groupHeads, List.filterMap_cons]
    have h2 : groupTails ((k, ps) :: rest) = ps.drop 1 ++ groupTails rest := by
      simp [groupTails, List.drop_one]
    have h3 : groupJoin ((k, ps) :: rest) = ps ++ groupJoin rest := by
      simp [groupJoin]
    have hps : (↑(ps.take 1) + ↑(ps.drop 1) : Multiset LinkRecord) = ↑ps := by
      rw [Multiset.coe_add, List.take_append_drop]
    rw [h1, h2, h3]
    simp only [← Multiset.coe_add]
    rw [← hps, ← ih]
    abel

theorem groupJoin_addToMap (m : UrlMap) (u : String) (p : LinkRecord) :
    (↑(groupJoin (addToMap m u p)) : Multiset LinkRecord)
      = ↑(groupJoin m) + ({p} : Multiset LinkRecord) := by
  induction m with
  | nil => simp [addToMap, groupJoin]
  | cons e rest ih =>
    obtain ⟨k, ps⟩ := e
    by_cases hk : k = u
    · subst hk
      have h1 : groupJoin ((k, ps ++ [p]) :: rest) = (ps ++ [p]) ++ groupJoin rest := by
        simp [groupJoin]
      have h2 : groupJoin ((k, ps) :: rest) = ps ++ groupJoin rest := by
        simp [groupJoin]
      rw [show addToMap ((k, ps) :: rest) k p = (k, ps ++ [p]) :: rest by
        simp [addToMap]]
      rw [h1, h2]
      simp only [← Multiset.coe_add, Multiset.coe_singleton]
      abel
    · have h1 : groupJoin ((k, ps) :: addToMap rest u p)
          = ps ++ groupJoin (addToMap rest u p) := by
        simp [groupJoin]
      have h2 : groupJoin ((k, ps) :: rest) = ps ++ groupJoin rest := by
        simp [groupJoin]
      simp only [addToMap, if_neg hk, h1, h2]
      simp only [← Multiset.coe_add]
      rw [ih]
      abel

theorem groupJoin_foldl (pages : List LinkRecord) (m : UrlMap) :
    (↑(groupJoin (pages.foldl urlMapStep m)) : Multiset LinkRecord)
      = ↑(groupJoin m) + ↑(pages.filter (fun p => jsTruthy p.url)) := by
  induction pages generalizing m with
  | nil => simp
  | cons p rest ih =>
    rw [List.foldl_cons]
    by_cases htr : jsTruthy p.url
    · have hstep : urlMapStep m p = addToMap m (p.url.getD "") p := by
        simp [urlMapStep, htr]
      have hfil : (p :: rest).filter (fun q => jsTruthy q.url)
          = [p] ++ rest.filter (fun q => jsTruthy q.url) := by
        simp [List.filter_cons, htr]
      rw [hstep, ih, groupJoin_addToMap, hfil]
      simp only [← Multiset.coe_add, Multiset.coe_singleton]
      abel
    · have hstep : urlMapStep m p = m := by
        simp [urlMapStep, htr]
      have hfil : (p :: rest).filter (fun q => jsTruthy q.url)
          = rest.filter (fun q => jsTruthy q.url) := by
        simp [List.filter_cons, htr]
      rw [hstep, ih, hfil]

theorem groupJoin_buildUrlMap (allPages : List LinkRecord) :
    (↑(groupJoin (buildUrlMap allPages)) : Multiset LinkRecord)
      = ↑(allPages.filter (fun p => jsTruthy p.url)) := by
  simpa [groupJoin] using groupJoin_foldl allPages []

/-- Outcome of the `notion.pages.update` call for one record. -/
inductive WriteResult
  | ok
  | thrown (message : String)

/-- `notion.pages.update` as a fallible call. -/
def notionPagesUpdate : WriteResult → Except String Unit
  | .ok => .ok ()
  | .thrown m => .error m

/-- What one `processPage` invocation did to its record. -/
inductive ProcessOutcome
  | skipped
  | updated (status : String)
  | updateFailed (status : String) (message : String)
deriving DecidableEq

/-- Embedding of `processPage(pageInfo, browser)`: skip records whose URL
is falsy, otherwise classify and write the status back; a thrown write
error is caught and logged (the `try/catch` around `notion.pages.update`
becomes the `match` on the `Except`), so `processPage` always returns an
outcome and never propagates the write failure. -/
def processPage (np : NewPageResult) (nav : NavResult) (write : WriteResult)
    (pageInfo : LinkRecord) : ProcessOutcome :=
  if jsTruthy pageInfo.url = false then .skipped
  else
    let status := (checkUrlStatus np nav pageInfo.url).1
    match notionPagesUpdate write with
    | .ok _ => .updated status
    | .error m => .updateFailed status m

/-- The per-record environment of a batch: the Playwright and Notion
outcomes each record's processing will encounter. -/
abbrev RecordBehaviour := LinkRecord → NewPageResult × NavResult × WriteResult

/-- The batch of `processPage` calls issued by `main`
(`uniquePagesToProcess.map(page => limit(() => processPage(page, browser)))`),
one outcome per record. -/
def processAll (behav : RecordBehaviour) (pages : List LinkRecord) :
    List ProcessOutcome :=
  pages.map (fun p => processPage (behav p).1 (behav p).2.1 (behav p).2.2 p)

/-! ## The bounded-concurrency batch runner (`pLimit(5)`) -/

/-- Modelled from the spec: the admission-control queue of `p-limit` is
third-party library code, not part of this repository (the source only
creates it with `pLimit(5)` and submits one task per record).  A state of
one batch run: records still queued, records whose task is in flight
(suspended awaiting I/O), and records that reached a terminal state
(skipped, processed, or failed-and-logged). -/
structure RunnerState where
  pending : List LinkRecord
  active : List LinkRecord
  finished : List LinkRecord
deriving DecidableEq

/-- Modelled from the spec: one scheduler transition of the bounded
runner.  A queued task is started only while fewer than `cap` tasks are
in flight; an in-flight task may settle, moving its record to the
terminal set. -/
inductive RunnerStep (cap : Nat) : RunnerState → RunnerState → Prop
  | start (r : LinkRecord) (pending active finished : List LinkRecord) :
      active.length < cap →
      RunnerStep cap ⟨r :: pending, active, finished⟩
        ⟨pending, r :: active, finished⟩
  | settle (r : LinkRecord) (pending act₁ act₂ finished : List LinkRecord) :
      RunnerStep cap ⟨pending, act₁ ++ r :: act₂, finished⟩
        ⟨pending, act₁ ++ act₂, r :: finished⟩

/-- The batch run starts with every record queued and nothing in flight. -/
def runnerInit (records : List LinkRecord) : RunnerState :=
  ⟨records, [], []⟩

/-- `await Promise.all(...)` resolves exactly when no task is queued or in
flight any more. -/
def runnerResolved (s : RunnerState) : Prop :=
  s.pending = [] ∧ s.active = []

/-- The states one batch run over `records` can be in. -/
def RunnerReachable (cap : Nat) (records : List LinkRecord)
    (s : RunnerState) : Prop :=
  Relation.ReflTransGen (RunnerStep cap) (runnerInit records) s

theorem runner_invariant (cap : Nat) (records : List LinkRecord)
    (s : RunnerState) (h : RunnerReachable cap records s) :
    s.active.length ≤ cap ∧
    (↑s.pending + ↑s.active + ↑s.finished : Multiset LinkRecord) = ↑records := by
  induction h with
  | refl => simp [runnerInit]
  | tail hab hbc ih =>
    obtain ⟨ihlen, ihms⟩ := ih
    cases hbc with
    | start r pending active finished hlt =>
      refine ⟨by simpa using hlt, ?_⟩
      rw [← ihms]
      simp only [← Multiset.cons_coe, ← Multiset.singleton_add, ← Multiset.coe_add]
      abel
    | settle r pending act₁ act₂ finished =>
      constructor
      · simp only [List.length_append] at ihlen ⊢
        simp at ihlen
        omega
      · rw [← ihms]
        simp only [← Multiset.cons_coe, ← Multiset.singleton_add, ← Multiset.coe_add]
        abel

/-! ## Shared helper lemmas and sample records for the claim theorems -/

theorem checkUrlStatus_response (u finalUrl : String) (status : Nat)
    (hu : jsTruthy (some u) = true) :
    (checkUrlStatus .ok (.ok finalUrl status) (some u)).1 =
      if finalUrl ≠ u ∧ finalUrl ≠ u ++ "/" then STATUS_MAP.redirect
      else if 200 ≤ status ∧ status < 400 then STATUS_MAP.available
      else if status = 404 then STATUS_MAP.dead
      else STATUS_MAP.error := by
  simp [checkUrlStatus, hu]

def sampleA1 : LinkRecord := ⟨"1", "a", some "https://a.example"⟩

def sampleA2 : LinkRecord := ⟨"3", "a-dup", some "https://a.example"⟩

def sampleB : LinkRecord := ⟨"2", "b", some "https://b.example"⟩

def sampleNull : LinkRecord := ⟨"4", "no-link", none⟩

/-! ## Claim theorems -/

/-- C1, counterexample to the claim as stated: a record whose `链接` URL is
`null` is entered into neither `uniquePagesToProcess` nor `pagesToDelete`
(the `forEach` guard `if (url)` skips it), so the union of the two outputs
misses it and, in particular, it does not appear in the canonical
output. -/
theorem C1_counterexample :
    partitionRecords [sampleNull] = ([], [])
    ∧ sampleNull ∉ (partitionRecords [sampleNull]).1
    ∧ sampleNull ∉ (partitionRecords [sampleNull]).2 := by
  decide

/-- C1, amended: the canonical and duplicate outputs of the partition are
disjoint and their union contains exactly once each input record whose URL
is non-empty/non-null (stated as a multiset equation); records with an
empty/null URL appear in neither output — they are dropped from the
partition entirely, not passed through as canonical. -/
theorem C1_partition_exact (allPages : List LinkRecord) :
    ((↑(partitionRecords allPages).1 + ↑(partitionRecords allPages).2 :
        Multiset LinkRecord)
      = ↑(allPages.filter (fun p => jsTruthy p.url)))
    ∧ (∀ p ∈ (partitionRecords allPages).1, jsTruthy p.url = true)
    ∧ (∀ p ∈ (partitionRecords allPages).2, jsTruthy p.url = true) := by
  have hpr := partitionRecords_eq allPages
  have h1 : (partitionRecords allPages).1 = groupHeads (buildUrlMap allPages) := by
    rw [hpr]
  have h2 : (partitionRecords allPages).2 = groupTails (buildUrlMap allPages) := by
    rw [hpr]
  have hms : (↑(partitionRecords allPages).1 + ↑(partitionRecords allPages).2 :
      Multiset LinkRecord) = ↑(allPages.filter (fun p => jsTruthy p.url)) := by
    rw [h1, h2, heads_tails_eq_join, groupJoin_buildUrlMap]
  refine ⟨hms, ?_, ?_⟩
  · intro p hp
    have hmem : p ∈ (↑(allPages.filter (fun q => jsTruthy q.url)) :
        Multiset LinkRecord) := by
      rw [← hms]
      exact Multiset.mem_add.mpr (Or.inl (Multiset.mem_coe.mpr hp))
    rw [Multiset.mem_coe, List.mem_filter] at hmem
    exact hmem.2
  · intro p hp
    have hmem : p ∈ (↑(allPages.filter (fun q => jsTruthy q.url)) :
        Multiset LinkRecord) := by
      rw [← hms]
      exact Multiset.mem_add.mpr (Or.inr (Multiset.mem_coe.mpr hp))
    rw [Multiset.mem_coe, List.mem_filter] at hmem
    exact hmem.2

/-- Witness for the amended C1 at a concrete input: three records, one of
them with a `null` URL. -/
theorem C1_partition_exact_witness :
    ((↑(partitionRecords [sampleA1, sampleNull, sampleA2]).1
        + ↑(partitionRecords [sampleA1, sampleNull, sampleA2]).2 :
        Multiset LinkRecord)
      = ↑([sampleA1, sampleNull, sampleA2].filter (fun p => jsTruthy p.url)))
    ∧ jsTruthy sampleA1.url = true :=
  ⟨(C1_partition_exact [sampleA1, sampleNull, sampleA2]).1,
    (C1_partition_exact [sampleA1, sampleNull, sampleA2]).2.1 sampleA1 (by decide)⟩

/-- C2: for every non-empty URL `u` occurring `k > 0` times in the input,
exactly one record with URL `u` is canonical — the earliest in input
order, since `occurrences` lists them in input order and the canonical one
is its first element — and the other `k - 1` are duplicates (they are
exactly the later occurrences, in order). -/
theorem C2_one_canonical_per_url (allPages : List LinkRecord) (u : String)
    (hu : u.isEmpty = false) (k : Nat)
    (hk : (occurrences u allPages).length = k) (hpos : 0 < k) :
    ((partitionRecords allPages).1.filter (hasUrl u)
      = (occurrences u allPages).take 1)
    ∧ ((partitionRecords allPages).1.filter (hasUrl u)).length = 1
    ∧ ((partitionRecords allPages).2.filter (hasUrl u)
      = (occurrences u allPages).drop 1)
    ∧ ((partitionRecords allPages).2.filter (hasUrl u)).length = k - 1 := by
  have hwf := entriesWF_buildUrlMap allPages
  have hnd := keysNodup_buildUrlMap allPages
  have hpr := partitionRecords_eq allPages
  have h1 : (partitionRecords allPages).1 = groupHeads (buildUrlMap allPages) := by
    rw [hpr]
  have h2 : (partitionRecords allPages).2 = groupTails (buildUrlMap allPages) := by
    rw [hpr]
  have hH := filter_groupHeads (buildUrlMap allPages) u hwf hnd
  have hT := filter_groupTails (buildUrlMap allPages) u hwf hnd
  rw [mapLookup_buildUrlMap u hu allPages] at hH hT
  refine ⟨by rw [h1, hH], ?_, by rw [h2, hT], ?_⟩
  · rw [h1, hH, List.length_take, hk]
    omega
  · rw [h2, hT, List.length_drop, hk]

/-- Witness for C2: the URL of `sampleA1`/`sampleA2` occurs twice; the
first occurrence is canonical, the second is the lone duplicate. -/
theorem C2_one_canonical_per_url_witness :
    ((partitionRecords [sampleA1, sampleB, sampleA2]).1.filter
        (hasUrl "https://a.example")
      = (occurrences "https://a.example" [sampleA1, sampleB, sampleA2]).take 1)
    ∧ ((partitionRecords [sampleA1, sampleB, sampleA2]).1.filter
        (hasUrl "https://a.example")).length = 1
    ∧ ((partitionRecords [sampleA1, sampleB, sampleA2]).2.filter
        (hasUrl "https://a.example")
      = (occurrences "https://a.example" [sampleA1, sampleB, sampleA2]).drop 1)
    ∧ ((partitionRecords [sampleA1, sampleB, sampleA2]).2.filter
        (hasUrl "https://a.example")).length = 2 - 1 :=
  C2_one_canonical_per_url [sampleA1, sampleB, sampleA2] "https://a.example"
    (by decide) 2 (by decide) (by decide)

/-- C3: when the probe navigation succeeds without a redirect (the final
URL equals the requested one, up to the tolerated added trailing slash),
the final status code maps to: `[200, 400)` → available, exactly `404` →
dead, anything else → error. -/
theorem C3_status_mapping (u finalUrl : String) (status : Nat)
    (hu : jsTruthy (some u) = true)
    (hnored : finalUrl = u ∨ finalUrl = u ++ "/") :
    ((200 ≤ status ∧ status < 400) →
      (checkUrlStatus .ok (.ok finalUrl status) (some u)).1 = STATUS_MAP.available)
    ∧ (status = 404 →
      (checkUrlStatus .ok (.ok finalUrl status) (some u)).1 = STATUS_MAP.dead)
    ∧ (¬(200 ≤ status ∧ status < 400) → status ≠ 404 →
      (checkUrlStatus .ok (.ok finalUrl status) (some u)).1 = STATUS_MAP.error) := by
  rw [checkUrlStatus_response u finalUrl status hu]
  have hcond : ¬(finalUrl ≠ u ∧ finalUrl ≠ u ++ "/") := by
    rcases hnored with h | h <;> simp [h]
  rw [if_neg hcond]
  refine ⟨fun hok => ?_, fun h404 => ?_, fun hnok hn404 => ?_⟩
  · rw [if_pos hok]
  · have hnok : ¬(200 ≤ status ∧ status < 400) := by omega
    rw [if_neg hnok, if_pos h404]
  · rw [if_neg hnok, if_neg hn404]

/-- Witness for C3: a probe of `https://a.example` answering 200 at the
same final URL is classified available; 404 dead; 500 error. -/
theorem C3_status_mapping_witness :
    ((200 ≤ 200 ∧ 200 < 400) →
      (checkUrlStatus .ok (.ok "https://a.example" 200)
        (some "https://a.example")).1 = STATUS_MAP.available)
    ∧ (200 = 404 →
      (checkUrlStatus .ok (.ok "https://a.example" 200)
        (some "https://a.example")).1 = STATUS_MAP.dead)
    ∧ (¬(200 ≤ 200 ∧ 200 < 400) → 200 ≠ 404 →
      (checkUrlStatus .ok (.ok "https://a.example" 200)
        (some "https://a.example")).1 = STATUS_MAP.error) :=
  C3_status_mapping "https://a.example" "https://a.example" 200
    (by decide) (Or.inl rfl)

/-- C4, counterexample to the claim as stated: the claim treats a
trailing-slash-only difference "between the two" URLs as equivalent
(hence not a redirect), but the code's tolerance is one-directional —
`finalUrl === url + '/'` is tolerated while `url === finalUrl + '/'` is
not.  A probe of `https://a.example/` whose final URL is
`https://a.example` (a trailing-slash-only difference) with status 200 is
classified as a redirect. -/
theorem C4_counterexample :
    "https://a.example/" = "https://a.example" ++ "/"
    ∧ (checkUrlStatus .ok (.ok "https://a.example" 200)
        (some "https://a.example/")).1 = STATUS_MAP.redirect := by
  decide

/-- C4, amended: with the one-directional tolerance the code actually
implements — only a final URL equal to the requested URL, or to the
requested URL plus a trailing slash, counts as "not redirected" — every
probe ending elsewhere is classified redirect (hence never available),
and every tolerated pair is never classified redirect. -/
theorem C4_redirect_detection (u finalUrl : String) (status : Nat)
    (hu : jsTruthy (some u) = true) :
    ((finalUrl ≠ u ∧ finalUrl ≠ u ++ "/") →
      (checkUrlStatus .ok (.ok finalUrl status) (some u)).1 = STATUS_MAP.redirect
      ∧ (checkUrlStatus .ok (.ok finalUrl status) (some u)).1 ≠ STATUS_MAP.available)
    ∧ ((finalUrl = u ∨ finalUrl = u ++ "/") →
      (checkUrlStatus .ok (.ok finalUrl status) (some u)).1 ≠ STATUS_MAP.redirect) := by
  rw [checkUrlStatus_response u finalUrl status hu]
  constructor
  · intro hred
    rw [if_pos hred]
    exact ⟨rfl, by decide⟩
  · intro hnored
    have hcond : ¬(finalUrl ≠ u ∧ finalUrl ≠ u ++ "/") := by
      rcases hnored with h | h <;> simp [h]
    rw [if_neg hcond]
    split_ifs <;> decide

/-- Witness for the amended C4: a probe of `https://a.example` ending at
`https://b.example` is a redirect; one ending at `https://a.example/` is
not. -/
theorem C4_redirect_detection_witness :
    (("https://b.example" ≠ "https://a.example"
        ∧ "https://b.example" ≠ "https://a.example" ++ "/") →
      (checkUrlStatus .ok (.ok "https://b.example" 200)
          (some "https://a.example")).1 = STATUS_MAP.redirect
      ∧ (checkUrlStatus .ok (.ok "https://b.example" 200)
          (some "https://a.example")).1 ≠ STATUS_MAP.available)
    ∧ (("https://b.example" = "https://a.example"
        ∨ "https://b.example" = "https://a.example" ++ "/") →
      (checkUrlStatus .ok (.ok "https://b.example" 200)
          (some "https://a.example")).1 ≠ STATUS_MAP.redirect) :=
  C4_redirect_detection "https://a.example" "https://b.example" 200 (by decide)

/-- C5: a `null` or empty URL is classified error immediately — no
browsing page is created and no navigation happens (the event trace is
empty), whatever the injected network behaviour would have answered. -/
theorem C5_falsy_url_no_probe (np : NewPageResult) (nav : NavResult) :
    checkUrlStatus np nav none = (STATUS_MAP.error, [])
    ∧ checkUrlStatus np nav (some "") = (STATUS_MAP.error, []) := by
  constructor <;> rfl

/-- C6: a thrown navigation error whose message contains "404" yields
dead, any other thrown error yields error; and on every input whatsoever
the classifier resolves to one of the four defined labels (it is a total
function into the status vocabulary — no exception escapes it). -/
theorem C6_thrown_error_mapping (u msg : String)
    (hu : jsTruthy (some u) = true) :
    ((jsIncludes msg "404" = true →
      (checkUrlStatus .ok (.thrown msg) (some u)).1 = STATUS_MAP.dead)
    ∧ (jsIncludes msg "404" = false →
      (checkUrlStatus .ok (.thrown msg) (some u)).1 = STATUS_MAP.error))
    ∧ (∀ (np : NewPageResult) (nav : NavResult) (url : Option String),
      (checkUrlStatus np nav url).1 = STATUS_MAP.available
      ∨ (checkUrlStatus np nav url).1 = STATUS_MAP.redirect
      ∨ (checkUrlStatus np nav url).1 = STATUS_MAP.dead
      ∨ (checkUrlStatus np nav url).1 = STATUS_MAP.error) := by
  constructor
  · constructor
    · intro h4
      simp [checkUrlStatus, hu, h4]
    · intro h4
      simp [checkUrlStatus, hu, h4]
  · intro np nav url
    by_cases hf : jsTruthy url = false
    · simp [checkUrlStatus, hf]
    · rw [checkUrlStatus, if_neg hf]
      cases np with
      | thrown m =>
        by_cases h4 : jsIncludes m "404" <;> simp [h4]
      | ok =>
        cases nav with
        | thrown m =>
          by_cases h4 : jsIncludes m "404" <;> simp [h4]
        | ok f st =>
          simp only
          split_ifs <;> simp

/-- Witness for C6: a thrown `net::ERR ... 404 ...` message maps to dead,
a timeout message to error. -/
theorem C6_thrown_error_mapping_witness :
    ((jsIncludes "page.goto: 404 Not Found" "404" = true →
      (checkUrlStatus .ok (.thrown "page.goto: 404 Not Found")
        (some "https://a.example")).1 = STATUS_MAP.dead)
    ∧ (jsIncludes "page.goto: 404 Not Found" "404" = false →
      (checkUrlStatus .ok (.thrown "page.goto: 404 Not Found")
        (some "https://a.example")).1 = STATUS_MAP.error))
    ∧ (∀ (np : NewPageResult) (nav : NavResult) (url : Option String),
      (checkUrlStatus np nav url).1 = STATUS_MAP.available
      ∨ (checkUrlStatus np nav url).1 = STATUS_MAP.redirect
      ∨ (checkUrlStatus np nav url).1 = STATUS_MAP.dead
      ∨ (checkUrlStatus np nav url).1 = STATUS_MAP.error) :=
  C6_thrown_error_mapping "https://a.example" "page.goto: 404 Not Found"
    (by decide)

/-- C10: the redirect check precedes the status-code mapping, so a probe
whose final URL differs (beyond the tolerated added trailing slash) is
classified redirect for every status code — in particular a redirected
navigation whose final status is 404 yields redirect, not dead. -/
theorem C10_redirect_precedence (u finalUrl : String)
    (hu : jsTruthy (some u) = true)
    (h1 : finalUrl ≠ u) (h2 : finalUrl ≠ u ++ "/") :
    (∀ status : Nat,
      (checkUrlStatus .ok (.ok finalUrl status) (some u)).1 = STATUS_MAP.redirect)
    ∧ (checkUrlStatus .ok (.ok finalUrl 404) (some u)).1 = STATUS_MAP.redirect
    ∧ (checkUrlStatus .ok (.ok finalUrl 404) (some u)).1 ≠ STATUS_MAP.dead := by
  have hall : ∀ status : Nat,
      (checkUrlStatus .ok (.ok finalUrl status) (some u)).1 = STATUS_MAP.redirect := by
    intro status
    rw [checkUrlStatus_response u finalUrl status hu, if_pos ⟨h1, h2⟩]
  refine ⟨hall, hall 404, ?_⟩
  rw [hall 404]
  decide

/-- Witness for C10: a probe of `https://a.example` redirected to
`https://b.example` answering 404 is classified redirect, not dead. -/
theorem C10_redirect_precedence_witness :
    (∀ status : Nat,
      (checkUrlStatus .ok (.ok "https://b.example" status)
        (some "https://a.example")).1 = STATUS_MAP.redirect)
    ∧ (checkUrlStatus .ok (.ok "https://b.example" 404)
        (some "https://a.example")).1 = STATUS_MAP.redirect
    ∧ (checkUrlStatus .ok (.ok "https://b.example" 404)
        (some "https://a.example")).1 ≠ STATUS_MAP.dead :=
  C10_redirect_precedence "https://a.example" "https://b.example"
    (by decide) (by decide) (by decide)

/-- C7: a failed status write-back is caught inside the failing record's
own `processPage` call — the batch outcome for that record is
`updateFailed` carrying the classification and the error message, and the
records before and after it in the batch are processed exactly as they
would otherwise be: the failure neither propagates out of `processPage`
nor aborts any other record's processing. -/
theorem C7_write_failure_isolated (behav : RecordBehaviour)
    (pre post : List LinkRecord) (p : LinkRecord)
    (np : NewPageResult) (nav : NavResult) (m : String)
    (hp : jsTruthy p.url = true)
    (hb : behav p = (np, nav, .thrown m)) :
    processAll behav (pre ++ p :: post)
      = processAll behav pre
        ++ .updateFailed (checkUrlStatus np nav p.url).1 m
          :: processAll behav post := by
  have hmid : processPage (behav p).1 (behav p).2.1 (behav p).2.2 p
      = .updateFailed (checkUrlStatus np nav p.url).1 m := by
    rw [hb]
    unfold processPage
    rw [if_neg (by simp [hp])]
    rfl
  unfold processAll
  rw [List.map_append, List.map_cons, hmid]

/-- Witness for C7: in a three-record batch whose middle record's Notion
write throws, the middle outcome is `updateFailed` and the outer records
keep their own outcomes. -/
theorem C7_write_failure_isolated_witness :
    processAll (fun _ => (.ok, .ok "https://a.example" 200, .thrown "rate limited"))
        ([sampleB] ++ sampleA1 :: [sampleNull])
      = processAll (fun _ => (.ok, .ok "https://a.example" 200, .thrown "rate limited"))
          [sampleB]
        ++ .updateFailed
            (checkUrlStatus .ok (.ok "https://a.example" 200) sampleA1.url).1
            "rate limited"
          :: processAll
            (fun _ => (.ok, .ok "https://a.example" 200, .thrown "rate limited"))
            [sampleNull] :=
  C7_write_failure_isolated
    (fun _ => (.ok, .ok "https://a.example" 200, .thrown "rate limited"))
    [sampleB] [sampleNull] sampleA1 .ok (.ok "https://a.example" 200)
    "rate limited" (by decide) rfl

/-- C8: on every exit path of a probe the page events balance — a page is
closed exactly as many times as one is created (in particular, whenever a
page was created it is closed before `checkUrlStatus` returns), and the
trace is either empty or ends with the close. -/
theorem C8_page_closed_every_path (np : NewPageResult) (nav : NavResult)
    (url : Option String) :
    ((checkUrlStatus np nav url).2.count BrowserEvent.pageCreated
      = (checkUrlStatus np nav url).2.count BrowserEvent.pageClosed)
    ∧ ((checkUrlStatus np nav url).2 = []
      ∨ (checkUrlStatus np nav url).2.getLast? = some BrowserEvent.pageClosed) := by
  by_cases hf : jsTruthy url = false
  · simp [checkUrlStatus, hf]
  · rw [checkUrlStatus, if_neg hf]
    cases np with
    | thrown m => simp
    | ok =>
      cases nav with
      | thrown m => simp [List.count_cons, List.getLast?]
      | ok f st => simp [List.count_cons, List.getLast?]

/-- C9: along every schedule of the bounded batch run with concurrency
cap 5, never more than 5 record-processing tasks are in flight, and if
the run resolves then every input record has reached a terminal state
(the finished multiset is exactly the input). -/
theorem C9_bounded_and_complete (records : List LinkRecord) (s : RunnerState)
    (h : RunnerReachable 5 records s) :
    s.active.length ≤ 5
    ∧ (runnerResolved s → (↑s.finished : Multiset LinkRecord) = ↑records) := by
  obtain ⟨hlen, hms⟩ := runner_invariant 5 records s h
  refine ⟨hlen, fun hres => ?_⟩
  obtain ⟨hpend, hact⟩ := hres
  rw [hpend, hact] at hms
  simpa using hms

/-- Witness for C9: a one-record batch, run to completion through an
explicit start/settle schedule. -/
theorem C9_bounded_and_complete_witness :
    (RunnerState.mk [] [] [sampleA1]).active.length ≤ 5
    ∧ (runnerResolved ⟨[], [], [sampleA1]⟩ →
      (↑(RunnerState.mk [] [] [sampleA1]).finished : Multiset LinkRecord)
        = ↑[sampleA1]) :=
  C9_bounded_and_complete [sampleA1] ⟨[], [], [sampleA1]⟩
    (Relation.ReflTransGen.tail
      (Relation.ReflTransGen.tail Relation.ReflTransGen.refl
        (RunnerStep.start sampleA1 [] [] [] (by decide)))
      (RunnerStep.settle sampleA1 [] [] [] []))

end CheckNotionUrl
